import Mathlib

/-!
Verification of the RAISE multi-agent workflow pipeline.

The repository's core behavior is a sequential multi-agent pipeline: an idea
is routed through an ordered list of agents, the trace is serialized as a
workflow log of `[Agent] direction: content` entries, and a client decodes
the log for display.

The client-side decoder (`parseWorkflowStep`, `agentResponses`,
`handleSubmit`) is embedded from `frontend/src/MainApp.js`. The backend
orchestrator and its codec are not present in the repository (only the
client contract and deployment plumbing are), so those components are
modelled from the spec, as marked on each definition.

Strings are modelled as `List Char`. The JavaScript regex character class
`\s` is modelled by the common ASCII whitespace characters (space, tab,
newline, carriage return), which covers all log text the system produces.
-/

namespace Raise

/-- Strings as lists of characters. -/
abbrev Str := List Char

/-- ASCII whitespace, modelling the regex class `\s` of JavaScript. -/
def isWs (c : Char) : Bool :=
  c = ' ' || c = '\t' || c = '\n' || c = '\r'

/-- Direction tag of a workflow log entry. -/
inductive Dir where
  | received
  | response
deriving DecidableEq, Repr

/-- A workflow log entry, per the spec's data model (WorkflowLogEntry). -/
structure WorkflowLogEntry where
  agent : Str
  direction : Dir
  content : Str
deriving DecidableEq, Repr

/-- The client decoder's output unit (DecodedStep in the spec's data model,
the object literal built by `parseWorkflowStep` in MainApp.js). -/
structure DecodedStep where
  agentName : Str
  type : Dir
  content : Str
deriving DecidableEq, Repr

/-- The in-memory entry reconstructed as a decoded step. -/
def toStep (e : WorkflowLogEntry) : DecodedStep :=
  ⟨e.agent, e.direction, e.content⟩

/-! ### Client-side decoder, embedded from MainApp.js

`parseWorkflowStep` applies the regex
`/\[(.*?)\]\s*(received|response):\s*(.*)/s` to one entry string and
returns `{agentName, type, content}` on a match, `null` otherwise.
The embedding reproduces the engine's behavior exactly: leftmost match
start, lazy growth of the name group (the first `]` whose continuation
matches wins), greedy whitespace runs (whitespace never begins
`received`/`response`, so backtracking inside `\s*` cannot change the
outcome), and a greedy final content group that runs to the end of the
string (flag `s` lets `.` cross newlines). -/

/-- Boolean list-prefix test, by direct recursion. -/
def strPre : Str → Str → Bool
  | [], _ => true
  | _ :: _, [] => false
  | a :: as, b :: bs => a = b && strPre as bs

/-- The characters of the literal token the regex requires after the name
group for a `received` entry: the direction word immediately followed by
the colon. -/
def recColon : Str := ['r', 'e', 'c', 'e', 'i', 'v', 'e', 'd', ':']

/-- The direction-and-colon token for a `response` entry. -/
def respColon : Str := ['r', 'e', 's', 'p', 'o', 'n', 's', 'e', ':']

/-- The part of the regex after the closing bracket of the name group:
`\s*(received|response):\s*(.*)`. Returns the direction and the content
capture. -/
def contMatch (t : Str) : Option (Dir × Str) :=
  let t1 := t.dropWhile isWs
  if strPre recColon t1 then
    some (Dir.received, (t1.drop 9).dropWhile isWs)
  else if strPre respColon t1 then
    some (Dir.response, (t1.drop 9).dropWhile isWs)
  else none

/-- The lazy name group `(.*?)\]` followed by the continuation: the first
closing bracket whose continuation matches closes the group; a bracket
whose continuation fails is swallowed into the name, as the backtracking
engine does. -/
def nameScan : Str → Option (Str × Dir × Str)
  | [] => none
  | c :: rest =>
    if c = ']' then
      match contMatch rest with
      | some (d, content) => some ([], d, content)
      | none => Option.map (fun r => (']' :: r.1, r.2.1, r.2.2)) (nameScan rest)
    else
      Option.map (fun r => (c :: r.1, r.2.1, r.2.2)) (nameScan rest)

/-- An attempt to match the whole regex at the current position: it must
start with an opening bracket. -/
def matchAt : Str → Option DecodedStep
  | [] => none
  | c :: rest =>
    if c = '[' then
      Option.map (fun r => DecodedStep.mk r.1 r.2.1 r.2.2) (nameScan rest)
    else none

/-- `parseWorkflowStep` from MainApp.js: the unanchored regex match tries
successive start positions left to right and returns the first success,
or `null` (here `none`) when no position matches. -/
def parseWorkflowStep : Str → Option DecodedStep
  | [] => none
  | c :: rest =>
    match matchAt (c :: rest) with
    | some st => some st
    | none => parseWorkflowStep rest

/-- Whether some suffix of the string begins a regex match (the string
contains the `[Name] direction:` marker pattern). -/
def containsMarker : Str → Bool
  | [] => false
  | c :: rest => (matchAt (c :: rest)).isSome || containsMarker rest

/-- `agentResponses` from MainApp.js:
`workflow.map(parseWorkflowStep).filter(step => step && step.type === 'response')`.
Mapping then discarding `null` is `filterMap`; the surviving steps are
filtered to the `response` type. -/
def agentResponses (ws : List Str) : List DecodedStep :=
  (ws.filterMap parseWorkflowStep).filter (fun st => st.type = Dir.response)

/-! ### Client-side submission gate, embedded from MainApp.js -/

/-- JavaScript `String.prototype.trim`: strip whitespace from both ends. -/
def jsTrim (s : Str) : Str :=
  ((s.dropWhile isWs).reverse.dropWhile isWs).reverse

/-- Outcome of `handleSubmit`: either the early return on a blank idea
(with the inline error message set, the InputError of the spec), or a
POST of the idea to `/process-idea`. -/
inductive SubmitOutcome where
  | inputError
  | submitted (requestBody : Str)
deriving DecidableEq, Repr

/-- The input gate of `handleSubmit` in MainApp.js: `if (!idea.trim())`
sets an error and returns before any request; otherwise the idea is sent. -/
def handleSubmit (idea : Str) : SubmitOutcome :=
  if jsTrim idea = [] then SubmitOutcome.inputError else SubmitOutcome.submitted idea

/-! ### Workflow Log Codec

Modelled from the spec: the backend that implements the codec is not part
of the repository (only its React client and deployment files are), so
`encode` and `decode` below follow section 4.1 of the spec: the canonical
line format `[<AgentName>] <direction>: <content>`, an `EncodeError` on an
empty agent name, and a decoder that scans for occurrences of the marker
pattern and slices content up to the next marker (non-greedy across
embedded newlines), dropping unmatched text silently. -/

/-- The characters of a direction tag. -/
def dirChars : Dir → Str
  | Dir.received => ['r', 'e', 'c', 'e', 'i', 'v', 'e', 'd']
  | Dir.response => ['r', 'e', 's', 'p', 'o', 'n', 's', 'e']

/-- Modelled from the spec: the canonical text form of one entry,
`[<AgentName>] <direction>: <content>`. -/
def encodeStr (e : WorkflowLogEntry) : Str :=
  '[' :: (e.agent ++ ']' :: ' ' :: (dirChars e.direction ++ ':' :: ' ' :: e.content))

/-- Modelled from the spec: `encode` fails with an EncodeError when the
agent name is empty (the direction is always one of the two tags here,
by the type of `Dir`). -/
def encodeE (e : WorkflowLogEntry) : Option Str :=
  if e.agent = [] then none else some (encodeStr e)

/-- Split a string at its first closing bracket: the name part before it
and the remainder after it (the non-greedy name of the marker pattern). -/
def nameSplit : Str → Option (Str × Str)
  | [] => none
  | c :: rest =>
    if c = ']' then some ([], rest)
    else Option.map (fun p => (c :: p.1, p.2)) (nameSplit rest)

/-- What must follow the closing bracket of a `received` marker:
a space, the direction word, the colon, and the separating space. -/
def recTail : Str := [' ', 'r', 'e', 'c', 'e', 'i', 'v', 'e', 'd', ':', ' ']

/-- What must follow the closing bracket of a `response` marker. -/
def respTail : Str := [' ', 'r', 'e', 's', 'p', 'o', 'n', 's', 'e', ':', ' ']

/-- Modelled from the spec: recognize the marker pattern
`[Name] direction: ` at the head of the string, returning the name, the
direction, and the length of the consumed marker. -/
def matchMarker : Str → Option (Str × Dir × Nat)
  | [] => none
  | c :: rest =>
    if c = '[' then
      match nameSplit rest with
      | none => none
      | some (name, tail) =>
        if strPre recTail tail then some (name, Dir.received, name.length + 13)
        else if strPre respTail tail then some (name, Dir.response, name.length + 13)
        else none
    else none

/-- Index of the first occurrence of the marker pattern in the string. -/
def findMarker : Str → Option Nat
  | [] => none
  | c :: rest =>
    if (matchMarker (c :: rest)).isSome then some 0
    else Option.map (fun n => n + 1) (findMarker rest)

/-- Modelled from the spec: the scanning decoder. At each step it jumps to
the first marker, reads the name and direction, and slices the content up
to the next marker occurrence (or the end of the log). Text before the
first marker is dropped silently. The fuel argument bounds the recursion;
one unit is spent per decoded entry. -/
def decodeAux : Nat → Str → List DecodedStep
  | 0, _ => []
  | fuel + 1, s =>
    match findMarker s with
    | none => []
    | some i =>
      match matchMarker (s.drop i) with
      | none => []
      | some (name, d, hdrLen) =>
        let body := (s.drop i).drop hdrLen
        match findMarker body with
        | none => [⟨name, d, body⟩]
        | some j => ⟨name, d, body.take j⟩ :: decodeAux fuel (body.drop j)

/-- Modelled from the spec: `decode(serializedLog)`. The string's length
is enough fuel, because every decoded entry consumes at least one
character of the log. -/
def decodeLog (s : Str) : List DecodedStep :=
  decodeAux s.length s

/-! ### Sequential Orchestrator

Modelled from the spec: the backend orchestration loop is not part of the
repository, so the state machine of section 4.2 is embedded directly: the
context starts as the idea; for each agent in order a `received` entry is
appended, the capability is invoked, and on success a `response` entry is
appended and the context becomes the response; on failure the run stops
with status Failure and `failedAt` set, leaving the dangling `received`
entry. The capability is an explicit parameter
`cap : name -> context -> Option text`, `none` meaning failure or
timeout. -/

/-- Pipeline status, per the spec's data model. -/
inductive PStatus where
  | success
  | partialFailure
  | failure
deriving DecidableEq, Repr

/-- The orchestrator's output, per the spec's data model. -/
structure PipelineResult where
  log : List WorkflowLogEntry
  status : PStatus
  failedAt : Option Str
deriving DecidableEq, Repr

/-- Modelled from the spec: the orchestration loop over the remaining
agents, carrying the current context and the accumulated log. -/
def orchLoop (cap : Str → Str → Option Str) :
    List Str → Str → List WorkflowLogEntry → PipelineResult
  | [], _, log => ⟨log, PStatus.success, none⟩
  | a :: rest, ctx, log =>
    match cap a ctx with
    | some out => orchLoop cap rest out (log ++ [⟨a, Dir.received, ctx⟩, ⟨a, Dir.response, out⟩])
    | none => ⟨log ++ [⟨a, Dir.received, ctx⟩], PStatus.failure, some a⟩

/-- Modelled from the spec: one full run over the configured agents,
starting from the idea with an empty log. -/
def runOrchestrator (cap : Str → Str → Option Str) (agents : List Str)
    (idea : Str) : PipelineResult :=
  orchLoop cap agents idea []

/-- Modelled from the spec: the successive values of the log during a run,
one snapshot per append (after each `received` and after each `response`),
starting from the given log. The run's trace is this list with the empty
starting log. -/
def orchTrace (cap : Str → Str → Option Str) :
    List Str → Str → List WorkflowLogEntry → List (List WorkflowLogEntry)
  | [], _, log => [log]
  | a :: rest, ctx, log =>
    match cap a ctx with
    | some out =>
      log :: (log ++ [⟨a, Dir.received, ctx⟩]) ::
        orchTrace cap rest out (log ++ [⟨a, Dir.received, ctx⟩, ⟨a, Dir.response, out⟩])
    | none => [log, log ++ [⟨a, Dir.received, ctx⟩]]

/-- The pairing discipline of a log: complete `received`/`response` pairs
with matching agents, optionally followed by one dangling `received`
entry at the very end. -/
def chainOK : List WorkflowLogEntry → Bool
  | [] => true
  | e :: [] => e.direction = Dir.received
  | e1 :: e2 :: rest =>
    (e1.direction = Dir.received) && (e2.direction = Dir.response)
      && (e1.agent = e2.agent) && chainOK rest

/-- A log made only of complete `received`/`response` pairs. -/
def paired : List WorkflowLogEntry → Bool
  | [] => true
  | _ :: [] => false
  | e1 :: e2 :: rest =>
    (e1.direction = Dir.received) && (e2.direction = Dir.response)
      && (e1.agent = e2.agent) && paired rest

/-- Each consecutive pair of snapshots grows by appending (the log is
append-only during a run). -/
def growsBy : List (List WorkflowLogEntry) → Prop
  | [] => True
  | _ :: [] => True
  | x :: y :: rest => (∃ t, x ++ t = y) ∧ growsBy (y :: rest)

/-- Every agent name listed twice in order, the agent sequence of a fully
successful log. -/
def twice : List Str → List Str
  | [] => []
  | a :: rest => a :: a :: twice rest

/-- The direction sequence of a fully successful log: `received, response`
per agent. -/
def pattRS : List Str → List Dir
  | [] => []
  | _ :: rest => Dir.received :: Dir.response :: pattRS rest

/-- The composition the deployed system runs for one submission: the
client gate of `handleSubmit` in front of the (spec-modelled) pipeline.
A rejected idea never reaches the orchestrator, so no PipelineResult
exists. -/
def clientRun (cap : Str → Str → Option Str) (agents : List Str)
    (idea : Str) : Option PipelineResult :=
  match handleSubmit idea with
  | SubmitOutcome.inputError => none
  | SubmitOutcome.submitted body => some (runOrchestrator cap agents body)

/-! ### Helper lemmas: client-side parsing of canonical entries -/

/-- A string that does not begin with whitespace (or is empty). -/
def headWsFree : Str → Bool
  | [] => true
  | c :: _ => !(isWs c)

theorem dropWhile_isWs_headFree (s : Str) (h : headWsFree s = true) :
    s.dropWhile isWs = s := by
  cases s with
  | nil => rfl
  | cons c rest =>
    simp only [headWsFree, Bool.not_eq_true'] at h
    simp [List.dropWhile_cons, h]

theorem strPre_self_append (p r : Str) : strPre p (p ++ r) = true := by
  induction p with
  | nil => rfl
  | cons a as ih => simp [strPre, ih]

theorem drop_len_append (p r : Str) : (p ++ r).drop p.length = r := by
  simp [List.drop_left]

theorem take_len_append (p r : Str) : (p ++ r).take p.length = p := by
  simp [List.take_left]

theorem dropWhile_ws_space (x : Str) :
    List.dropWhile isWs (' ' :: x) = List.dropWhile isWs x := rfl

theorem dropWhile_ws_r (x : Str) : List.dropWhile isWs ('r' :: x) = 'r' :: x := rfl

theorem contMatch_canonical (d : Dir) (content : Str)
    (h : headWsFree content = true) :
    contMatch (' ' :: (dirChars d ++ ':' :: ' ' :: content)) = some (d, content) := by
  cases d with
  | received =>
    have h1 : dirChars Dir.received ++ ':' :: ' ' :: content
        = recColon ++ ' ' :: content := rfl
    have h2 : (' ' :: (recColon ++ ' ' :: content)).dropWhile isWs
        = recColon ++ ' ' :: content := by
      rw [dropWhile_ws_space,
        show recColon ++ ' ' :: content
          = 'r' :: (['e', 'c', 'e', 'i', 'v', 'e', 'd', ':'] ++ ' ' :: content) from rfl,
        dropWhile_ws_r]
    rw [h1]
    simp only [contMatch, h2, strPre_self_append, if_true]
    have h3 : (recColon ++ ' ' :: content).drop 9 = ' ' :: content :=
      drop_len_append recColon (' ' :: content)
    rw [h3, dropWhile_ws_space, dropWhile_isWs_headFree content h]
  | response =>
    have h1 : dirChars Dir.response ++ ':' :: ' ' :: content
        = respColon ++ ' ' :: content := rfl
    have h2 : (' ' :: (respColon ++ ' ' :: content)).dropWhile isWs
        = respColon ++ ' ' :: content := by
      rw [dropWhile_ws_space,
        show respColon ++ ' ' :: content
          = 'r' :: (['e', 's', 'p', 'o', 'n', 's', 'e', ':'] ++ ' ' :: content) from rfl,
        dropWhile_ws_r]
    have h4 : strPre recColon (respColon ++ ' ' :: content) = false := rfl
    rw [h1]
    simp only [contMatch, h2, h4, strPre_self_append, if_true, Bool.false_eq_true, if_false]
    have h3 : (respColon ++ ' ' :: content).drop 9 = ' ' :: content :=
      drop_len_append respColon (' ' :: content)
    rw [h3, dropWhile_ws_space, dropWhile_isWs_headFree content h]

theorem nameScan_clean (n : Str) (t : Str) (d : Dir) (ct : Str)
    (hn : ']' ∉ n) (h : contMatch t = some (d, ct)) :
    nameScan (n ++ ']' :: t) = some (n, d, ct) := by
  induction n with
  | nil => simp [nameScan, h]
  | cons a as ih =>
    have ha : ¬(a = ']') := fun hc => hn (hc ▸ List.mem_cons_self a as)
    have has : ']' ∉ as := fun hc => hn (List.mem_cons_of_mem a hc)
    simp [nameScan, ha, ih has]

theorem parse_encode (e : WorkflowLogEntry) (hn : ']' ∉ e.agent)
    (hc : headWsFree e.content = true) :
    parseWorkflowStep (encodeStr e) = some (toStep e) := by
  have hcont : contMatch (' ' :: (dirChars e.direction ++ ':' :: ' ' :: e.content))
      = some (e.direction, e.content) := contMatch_canonical e.direction e.content hc
  have hscan : nameScan (e.agent ++ ']' :: (' ' :: (dirChars e.direction ++ ':' :: ' ' :: e.content)))
      = some (e.agent, e.direction, e.content) :=
    nameScan_clean e.agent _ e.direction e.content hn hcont
  simp [parseWorkflowStep, encodeStr, matchAt, hscan, toStep]

theorem parse_none_of_no_marker (s : Str) (h : containsMarker s = false) :
    parseWorkflowStep s = none := by
  induction s with
  | nil => rfl
  | cons c rest ih =>
    simp only [containsMarker, Bool.or_eq_false_iff] at h
    obtain ⟨h1, h2⟩ := h
    have hnone : matchAt (c :: rest) = none := by
      cases hm : matchAt (c :: rest) with
      | none => rfl
      | some st => rw [hm] at h1; simp at h1
    simp [parseWorkflowStep, hnone, ih h2]

/-! ### Helper lemmas: codec round trip -/

/-- Concatenation of the encodings of a sequence of entries, the
serialized log that the round-trip law feeds to the decoder. -/
def encodeAll : List WorkflowLogEntry → Str
  | [] => []
  | e :: rest => encodeStr e ++ encodeAll rest

/-- Well-formedness for the round-trip law: a non-empty agent name free
of the closing bracket, and content free of the opening bracket (so no
marker pattern can occur inside a content or straddle into the next
entry). -/
def wfRT (e : WorkflowLogEntry) : Prop :=
  e.agent ≠ [] ∧ ']' ∉ e.agent ∧ '[' ∉ e.content

instance (e : WorkflowLogEntry) : Decidable (wfRT e) := by
  unfold wfRT
  infer_instance

/-- The marker part of an encoded entry, before the content. -/
def hdrOf (e : WorkflowLogEntry) : Str :=
  '[' :: (e.agent ++ ']' :: ' ' :: (dirChars e.direction ++ [':', ' ']))

theorem encodeStr_eq_hdr (e : WorkflowLogEntry) :
    encodeStr e = hdrOf e ++ e.content := by
  simp [encodeStr, hdrOf, List.append_assoc]

theorem hdrOf_length (e : WorkflowLogEntry) :
    (hdrOf e).length = e.agent.length + 13 := by
  cases hd : e.direction <;>
    simp [hdrOf, hd, dirChars, List.length_append]

theorem nameSplit_clean (n t : Str) (hn : ']' ∉ n) :
    nameSplit (n ++ ']' :: t) = some (n, t) := by
  induction n with
  | nil => simp [nameSplit]
  | cons a as ih =>
    have ha : ¬(a = ']') := fun hc => hn (hc ▸ List.mem_cons_self a as)
    have has : ']' ∉ as := fun hc => hn (List.mem_cons_of_mem a hc)
    simp [nameSplit, ha, ih has]

theorem matchMarker_encode (e : WorkflowLogEntry) (rest : Str)
    (hn : ']' ∉ e.agent) :
    matchMarker (encodeStr e ++ rest)
      = some (e.agent, e.direction, e.agent.length + 13) := by
  have hsplit : nameSplit (e.agent ++ ']' :: (' ' :: (dirChars e.direction ++ ':' :: ' ' :: (e.content ++ rest))))
      = some (e.agent, ' ' :: (dirChars e.direction ++ ':' :: ' ' :: (e.content ++ rest))) :=
    nameSplit_clean e.agent _ hn
  have hshape : encodeStr e ++ rest
      = '[' :: (e.agent ++ ']' :: (' ' :: (dirChars e.direction ++ ':' :: ' ' :: (e.content ++ rest)))) := by
    simp [encodeStr, List.append_assoc]
  rw [hshape]
  cases hd : e.direction with
  | received =>
    have htail : ' ' :: (dirChars Dir.received ++ ':' :: ' ' :: (e.content ++ rest))
        = recTail ++ (e.content ++ rest) := rfl
    rw [hd] at hsplit
    rw [htail] at hsplit
    rw [htail]
    simp [matchMarker, hsplit, strPre_self_append]
  | response =>
    have htail : ' ' :: (dirChars Dir.response ++ ':' :: ' ' :: (e.content ++ rest))
        = respTail ++ (e.content ++ rest) := rfl
    have hne : strPre recTail (respTail ++ (e.content ++ rest)) = false := rfl
    rw [hd] at hsplit
    rw [htail] at hsplit
    rw [htail]
    simp [matchMarker, hsplit, hne, strPre_self_append]

theorem matchMarker_nonbracket (c : Char) (l : Str) (h : ¬(c = '[')) :
    matchMarker (c :: l) = none := by
  simp [matchMarker, h]

theorem findMarker_encode (e : WorkflowLogEntry) (rest : Str)
    (hn : ']' ∉ e.agent) :
    findMarker (encodeStr e ++ rest) = some 0 := by
  have h1 : encodeStr e ++ rest
      = '[' :: ((e.agent ++ ']' :: ' ' :: (dirChars e.direction ++ ':' :: ' ' :: e.content)) ++ rest) := by
    simp [encodeStr]
  have h2 : (matchMarker (encodeStr e ++ rest)).isSome = true := by
    rw [matchMarker_encode e rest hn]; rfl
  rw [h1] at h2 ⊢
  simp only [findMarker, h2, if_true]

theorem findMarker_cons (c : Char) (l : Str) :
    findMarker (c :: l) = if (matchMarker (c :: l)).isSome = true then some 0
      else Option.map (fun n => n + 1) (findMarker l) := rfl

theorem findMarker_free_append (content rest : Str) (h : '[' ∉ content) :
    findMarker (content ++ rest)
      = Option.map (fun n => n + content.length) (findMarker rest) := by
  induction content with
  | nil =>
    simp only [List.nil_append, List.length_nil]
    cases findMarker rest <;> simp
  | cons c cs ih =>
    have hc : ¬(c = '[') := fun hc => h (hc ▸ List.mem_cons_self c cs)
    have hcs : '[' ∉ cs := fun hc => h (List.mem_cons_of_mem c hc)
    have hm : matchMarker (c :: (cs ++ rest)) = none := matchMarker_nonbracket c _ hc
    rw [List.cons_append, findMarker_cons, hm]
    simp only [Option.isSome_none, Bool.false_eq_true, if_false, ih hcs]
    cases findMarker rest with
    | none => simp
    | some n => simp [List.length_cons, Nat.add_assoc]

theorem decodeAux_nil (fuel : Nat) : decodeAux fuel [] = [] := by
  cases fuel <;> simp [decodeAux, findMarker]

theorem drop_hdr (e : WorkflowLogEntry) (rest : Str) :
    (encodeStr e ++ rest).drop (e.agent.length + 13) = e.content ++ rest := by
  rw [encodeStr_eq_hdr, List.append_assoc, ← hdrOf_length e, drop_len_append]

theorem decodeAux_single (e : WorkflowLogEntry) (fuel : Nat)
    (hnb : ']' ∉ e.agent) (hcf : '[' ∉ e.content) :
    decodeAux (fuel + 1) (encodeStr e) = [toStep e] := by
  have hfind : findMarker (encodeStr e) = some 0 := by
    have h := findMarker_encode e [] hnb
    rwa [List.append_nil] at h
  have hmm : matchMarker (encodeStr e) = some (e.agent, e.direction, e.agent.length + 13) := by
    have h := matchMarker_encode e [] hnb
    rwa [List.append_nil] at h
  have hbody : (encodeStr e).drop (e.agent.length + 13) = e.content := by
    have h := drop_hdr e []
    rwa [List.append_nil, List.append_nil] at h
  have hf2 : findMarker e.content = none := by
    have h := findMarker_free_append e.content [] hcf
    rw [List.append_nil] at h
    rw [h]
    rfl
  simp only [decodeAux, hfind, List.drop_zero, hmm, hbody, hf2]
  rfl

theorem decodeAux_cons (e e2 : WorkflowLogEntry) (es2 : List WorkflowLogEntry)
    (fuel : Nat) (hnb : ']' ∉ e.agent) (hcf : '[' ∉ e.content) (hnb2 : ']' ∉ e2.agent) :
    decodeAux (fuel + 1) (encodeAll (e :: e2 :: es2))
      = toStep e :: decodeAux fuel (encodeAll (e2 :: es2)) := by
  have henc : encodeAll (e :: e2 :: es2) = encodeStr e ++ encodeAll (e2 :: es2) := rfl
  have hfind : findMarker (encodeStr e ++ encodeAll (e2 :: es2)) = some 0 :=
    findMarker_encode e _ hnb
  have hmm : matchMarker (encodeStr e ++ encodeAll (e2 :: es2))
      = some (e.agent, e.direction, e.agent.length + 13) :=
    matchMarker_encode e _ hnb
  have hbody : (encodeStr e ++ encodeAll (e2 :: es2)).drop (e.agent.length + 13)
      = e.content ++ encodeAll (e2 :: es2) := drop_hdr e _
  have hf2 : findMarker (e.content ++ encodeAll (e2 :: es2)) = some e.content.length := by
    rw [findMarker_free_append e.content _ hcf,
      show encodeAll (e2 :: es2) = encodeStr e2 ++ encodeAll es2 from rfl,
      findMarker_encode e2 _ hnb2]
    simp
  have htake : (e.content ++ encodeAll (e2 :: es2)).take e.content.length
      = e.content := take_len_append _ _
  have hdrop : (e.content ++ encodeAll (e2 :: es2)).drop e.content.length
      = encodeAll (e2 :: es2) := drop_len_append _ _
  rw [henc]
  simp only [decodeAux, hfind, List.drop_zero, hmm, hbody, hf2, htake, hdrop]
  rfl

theorem decodeAux_encodeAll :
    ∀ (es : List WorkflowLogEntry) (fuel : Nat), es.length ≤ fuel →
      (∀ e ∈ es, wfRT e) → decodeAux fuel (encodeAll es) = es.map toStep
  | [], fuel, _, _ => by rw [show encodeAll [] = [] from rfl, decodeAux_nil]; rfl
  | e :: es, 0, h, _ => by simp at h
  | e :: es, fuel + 1, h, hwf => by
    obtain ⟨_, hnb, hcf⟩ := hwf e (List.mem_cons_self e es)
    have hwf' : ∀ x ∈ es, wfRT x := fun x hx => hwf x (List.mem_cons_of_mem e hx)
    cases es with
    | nil =>
      have h1 : encodeAll [e] = encodeStr e := by
        rw [show encodeAll [e] = encodeStr e ++ encodeAll [] from rfl]
        rw [show encodeAll [] = [] from rfl, List.append_nil]
      rw [h1, decodeAux_single e fuel hnb hcf]
      rfl
    | cons e2 es2 =>
      obtain ⟨_, hnb2, _⟩ := hwf' e2 (List.mem_cons_self e2 es2)
      have hrec : decodeAux fuel (encodeAll (e2 :: es2)) = (e2 :: es2).map toStep :=
        decodeAux_encodeAll (e2 :: es2) fuel (by simp at h ⊢; omega) hwf'
      rw [decodeAux_cons e e2 es2 fuel hnb hcf hnb2, hrec]
      rfl

theorem length_le_encodeAll (es : List WorkflowLogEntry) :
    es.length ≤ (encodeAll es).length := by
  induction es with
  | nil => simp [encodeAll]
  | cons e rest ih =>
    have : (encodeAll (e :: rest)).length = (encodeStr e).length + (encodeAll rest).length := by
      simp [encodeAll, List.length_append]
    have h1 : 1 ≤ (encodeStr e).length := by simp [encodeStr]
    simp only [List.length_cons]
    omega

theorem decodeLog_encodeAll (es : List WorkflowLogEntry)
    (hwf : ∀ e ∈ es, wfRT e) :
    decodeLog (encodeAll es) = es.map toStep :=
  decodeAux_encodeAll es (encodeAll es).length (length_le_encodeAll es) hwf

/-! ### Helper lemmas: orchestrator runs -/

theorem orchLoop_cons_some (cap : Str → Str → Option Str) (a : Str)
    (rest : List Str) (ctx : Str) (log : List WorkflowLogEntry) (out : Str)
    (h : cap a ctx = some out) :
    orchLoop cap (a :: rest) ctx log
      = orchLoop cap rest out (log ++ [⟨a, Dir.received, ctx⟩, ⟨a, Dir.response, out⟩]) := by
  rw [show orchLoop cap (a :: rest) ctx log
      = (match cap a ctx with
         | some out => orchLoop cap rest out (log ++ [⟨a, Dir.received, ctx⟩, ⟨a, Dir.response, out⟩])
         | none => ⟨log ++ [⟨a, Dir.received, ctx⟩], PStatus.failure, some a⟩) from rfl, h]

theorem orchLoop_cons_none (cap : Str → Str → Option Str) (a : Str)
    (rest : List Str) (ctx : Str) (log : List WorkflowLogEntry)
    (h : cap a ctx = none) :
    orchLoop cap (a :: rest) ctx log
      = ⟨log ++ [⟨a, Dir.received, ctx⟩], PStatus.failure, some a⟩ := by
  rw [show orchLoop cap (a :: rest) ctx log
      = (match cap a ctx with
         | some out => orchLoop cap rest out (log ++ [⟨a, Dir.received, ctx⟩, ⟨a, Dir.response, out⟩])
         | none => ⟨log ++ [⟨a, Dir.received, ctx⟩], PStatus.failure, some a⟩) from rfl, h]

theorem orchTrace_cons_some (cap : Str → Str → Option Str) (a : Str)
    (rest : List Str) (ctx : Str) (log : List WorkflowLogEntry) (out : Str)
    (h : cap a ctx = some out) :
    orchTrace cap (a :: rest) ctx log
      = log :: (log ++ [⟨a, Dir.received, ctx⟩]) ::
          orchTrace cap rest out (log ++ [⟨a, Dir.received, ctx⟩, ⟨a, Dir.response, out⟩]) := by
  rw [show orchTrace cap (a :: rest) ctx log
      = (match cap a ctx with
         | some out => log :: (log ++ [⟨a, Dir.received, ctx⟩]) ::
             orchTrace cap rest out (log ++ [⟨a, Dir.received, ctx⟩, ⟨a, Dir.response, out⟩])
         | none => [log, log ++ [⟨a, Dir.received, ctx⟩]]) from rfl, h]

theorem orchTrace_cons_none (cap : Str → Str → Option Str) (a : Str)
    (rest : List Str) (ctx : Str) (log : List WorkflowLogEntry)
    (h : cap a ctx = none) :
    orchTrace cap (a :: rest) ctx log = [log, log ++ [⟨a, Dir.received, ctx⟩]] := by
  rw [show orchTrace cap (a :: rest) ctx log
      = (match cap a ctx with
         | some out => log :: (log ++ [⟨a, Dir.received, ctx⟩]) ::
             orchTrace cap rest out (log ++ [⟨a, Dir.received, ctx⟩, ⟨a, Dir.response, out⟩])
         | none => [log, log ++ [⟨a, Dir.received, ctx⟩]]) from rfl, h]

theorem orchLoop_success (cap : Str → Str → Option Str) :
    ∀ (ag : List Str) (ctx : Str) (log : List WorkflowLogEntry),
      (∀ a ctx2, a ∈ ag → (cap a ctx2).isSome = true) →
      ∃ suf, orchLoop cap ag ctx log = ⟨log ++ suf, PStatus.success, none⟩
        ∧ suf.map (fun e => e.agent) = twice ag
        ∧ suf.map (fun e => e.direction) = pattRS ag
        ∧ suf.length = 2 * ag.length
  | [], ctx, log, _ => by
    refine ⟨[], ?_, rfl, rfl, rfl⟩
    simp [orchLoop]
  | a :: rest, ctx, log, hcap => by
    have hs : (cap a ctx).isSome = true := hcap a ctx (List.mem_cons_self a rest)
    obtain ⟨out, hout⟩ := Option.isSome_iff_exists.mp hs
    have hcap' : ∀ x ctx2, x ∈ rest → (cap x ctx2).isSome = true :=
      fun x ctx2 hx => hcap x ctx2 (List.mem_cons_of_mem a hx)
    obtain ⟨suf, hloop, hag, hdir, hlen⟩ :=
      orchLoop_success cap rest out (log ++ [⟨a, Dir.received, ctx⟩, ⟨a, Dir.response, out⟩]) hcap'
    refine ⟨⟨a, Dir.received, ctx⟩ :: ⟨a, Dir.response, out⟩ :: suf, ?_, ?_, ?_, ?_⟩
    · rw [orchLoop_cons_some cap a rest ctx log out hout, hloop]
      simp
    · simp [hag, twice]
    · simp [hdir, pattRS]
    · simp only [List.length_cons, hlen, List.length_cons]
      omega

theorem orchLoop_failure (cap : Str → Str → Option Str) (bad : Str)
    (post : List Str) (hbad : ∀ ctx2, cap bad ctx2 = none) :
    ∀ (pre : List Str) (ctx : Str) (log : List WorkflowLogEntry),
      (∀ a ctx2, a ∈ pre → (cap a ctx2).isSome = true) →
      ∃ suf, orchLoop cap (pre ++ bad :: post) ctx log
          = ⟨log ++ suf, PStatus.failure, some bad⟩
        ∧ suf.map (fun e => e.agent) = twice pre ++ [bad]
        ∧ suf.map (fun e => e.direction) = pattRS pre ++ [Dir.received]
        ∧ suf.length = 2 * pre.length + 1
  | [], ctx, log, _ => by
    refine ⟨[⟨bad, Dir.received, ctx⟩], ?_, rfl, rfl, rfl⟩
    rw [List.nil_append, orchLoop_cons_none cap bad post ctx log (hbad ctx)]
  | a :: rest, ctx, log, hcap => by
    have hs : (cap a ctx).isSome = true := hcap a ctx (List.mem_cons_self a rest)
    obtain ⟨out, hout⟩ := Option.isSome_iff_exists.mp hs
    have hcap' : ∀ x ctx2, x ∈ rest → (cap x ctx2).isSome = true :=
      fun x ctx2 hx => hcap x ctx2 (List.mem_cons_of_mem a hx)
    obtain ⟨suf, hloop, hag, hdir, hlen⟩ :=
      orchLoop_failure cap bad post hbad rest out
        (log ++ [⟨a, Dir.received, ctx⟩, ⟨a, Dir.response, out⟩]) hcap'
    refine ⟨⟨a, Dir.received, ctx⟩ :: ⟨a, Dir.response, out⟩ :: suf, ?_, ?_, ?_, ?_⟩
    · rw [List.cons_append,
        orchLoop_cons_some cap a (rest ++ bad :: post) ctx log out hout, hloop]
      simp
    · simp [hag, twice]
    · simp [hdir, pattRS]
    · simp only [List.length_cons, hlen, List.length_cons]
      omega

theorem mem_twice (x : Str) : ∀ l : List Str, x ∈ twice l → x ∈ l
  | a :: rest, h => by
    rw [show twice (a :: rest) = a :: a :: twice rest from rfl] at h
    rcases List.mem_cons.mp h with h1 | h'
    · exact h1 ▸ List.mem_cons_self a rest
    · rcases List.mem_cons.mp h' with h2 | h3
      · exact h2 ▸ List.mem_cons_self a rest
      · exact List.mem_cons_of_mem a (mem_twice x rest h3)

/-! ### Helper lemmas: trace invariants -/

theorem paired_chainOK : ∀ l, paired l = true → chainOK l = true
  | [], _ => rfl
  | [e], h => by simp [paired] at h
  | e1 :: e2 :: rest, h => by
    simp only [paired, Bool.and_eq_true] at h
    obtain ⟨⟨⟨h1, h2⟩, h3⟩, h4⟩ := h
    simp only [chainOK, Bool.and_eq_true]
    exact ⟨⟨⟨h1, h2⟩, h3⟩, paired_chainOK rest h4⟩

theorem chainOK_append_recv :
    ∀ (l : List WorkflowLogEntry) (e : WorkflowLogEntry), paired l = true →
      e.direction = Dir.received → chainOK (l ++ [e]) = true
  | [], e, _, he => by simp [chainOK, he]
  | [x], e, h, _ => by simp [paired] at h
  | x :: y :: rest, e, h, he => by
    simp only [paired, Bool.and_eq_true] at h
    obtain ⟨⟨⟨h1, h2⟩, h3⟩, h4⟩ := h
    rw [show (x :: y :: rest) ++ [e] = x :: y :: (rest ++ [e]) from rfl]
    simp only [chainOK, Bool.and_eq_true]
    exact ⟨⟨⟨h1, h2⟩, h3⟩, chainOK_append_recv rest e h4 he⟩

theorem paired_append_pair :
    ∀ (l : List WorkflowLogEntry) (e1 e2 : WorkflowLogEntry), paired l = true →
      e1.direction = Dir.received → e2.direction = Dir.response → e1.agent = e2.agent →
      paired (l ++ [e1, e2]) = true
  | [], e1, e2, _, h1, h2, h3 => by simp [paired, h1, h2, h3]
  | [x], e1, e2, h, _, _, _ => by simp [paired] at h
  | x :: y :: rest, e1, e2, h, h1, h2, h3 => by
    simp only [paired, Bool.and_eq_true] at h
    obtain ⟨⟨⟨hx, hy⟩, hxy⟩, hrest⟩ := h
    rw [show (x :: y :: rest) ++ [e1, e2] = x :: y :: (rest ++ [e1, e2]) from rfl]
    simp only [paired, Bool.and_eq_true]
    exact ⟨⟨⟨hx, hy⟩, hxy⟩, paired_append_pair rest e1 e2 hrest h1 h2 h3⟩

theorem orchTrace_shape (cap : Str → Str → Option Str) (ag : List Str)
    (ctx : Str) (log : List WorkflowLogEntry) :
    ∃ tl, orchTrace cap ag ctx log = log :: tl := by
  cases ag with
  | nil => exact ⟨[], rfl⟩
  | cons a rest =>
    cases hc : cap a ctx with
    | some out =>
      refine ⟨(log ++ [⟨a, Dir.received, ctx⟩]) ::
        orchTrace cap rest out (log ++ [⟨a, Dir.received, ctx⟩, ⟨a, Dir.response, out⟩]), ?_⟩
      simp [orchTrace, hc]
    | none =>
      refine ⟨[log ++ [⟨a, Dir.received, ctx⟩]], ?_⟩
      simp [orchTrace, hc]

theorem orchTrace_chainOK (cap : Str → Str → Option Str) :
    ∀ (ag : List Str) (ctx : Str) (log : List WorkflowLogEntry),
      paired log = true → ∀ l ∈ orchTrace cap ag ctx log, chainOK l = true
  | [], ctx, log, hp => by
    intro l hl
    rw [show orchTrace cap [] ctx log = [log] from rfl] at hl
    rw [List.mem_singleton.mp hl]
    exact paired_chainOK log hp
  | a :: rest, ctx, log, hp => by
    intro l hl
    cases hc : cap a ctx with
    | some out =>
      rw [orchTrace_cons_some cap a rest ctx log out hc] at hl
      rcases List.mem_cons.mp hl with h1 | hl'
      · exact h1 ▸ paired_chainOK log hp
      rcases List.mem_cons.mp hl' with h2 | hl''
      · exact h2 ▸ chainOK_append_recv log ⟨a, Dir.received, ctx⟩ hp rfl
      · exact orchTrace_chainOK cap rest out _
          (paired_append_pair log ⟨a, Dir.received, ctx⟩ ⟨a, Dir.response, out⟩ hp rfl rfl rfl)
          l hl''
    | none =>
      rw [orchTrace_cons_none cap a rest ctx log hc] at hl
      rcases List.mem_cons.mp hl with h1 | hl'
      · exact h1 ▸ paired_chainOK log hp
      · rw [List.mem_singleton.mp hl']
        exact chainOK_append_recv log ⟨a, Dir.received, ctx⟩ hp rfl

theorem orchTrace_growsBy (cap : Str → Str → Option Str) :
    ∀ (ag : List Str) (ctx : Str) (log : List WorkflowLogEntry),
      growsBy (orchTrace cap ag ctx log)
  | [], ctx, log => by
    rw [show orchTrace cap [] ctx log = [log] from rfl]
    trivial
  | a :: rest, ctx, log => by
    cases hc : cap a ctx with
    | some out =>
      obtain ⟨tl, htl⟩ := orchTrace_shape cap rest out
        (log ++ [⟨a, Dir.received, ctx⟩, ⟨a, Dir.response, out⟩])
      have hg : growsBy (orchTrace cap rest out
          (log ++ [⟨a, Dir.received, ctx⟩, ⟨a, Dir.response, out⟩])) :=
        orchTrace_growsBy cap rest out _
      rw [htl] at hg
      rw [orchTrace_cons_some cap a rest ctx log out hc, htl]
      refine ⟨⟨[⟨a, Dir.received, ctx⟩], rfl⟩, ⟨[⟨a, Dir.response, out⟩], ?_⟩, hg⟩
      simp
    | none =>
      rw [orchTrace_cons_none cap a rest ctx log hc]
      exact ⟨⟨[⟨a, Dir.received, ctx⟩], rfl⟩, trivial⟩

theorem orchLoop_log_extends (cap : Str → Str → Option Str) :
    ∀ (ag : List Str) (ctx : Str) (log : List WorkflowLogEntry),
      ∃ t, (orchLoop cap ag ctx log).log = log ++ t
  | [], ctx, log => ⟨[], by simp [orchLoop]⟩
  | a :: rest, ctx, log => by
    cases hc : cap a ctx with
    | some out =>
      obtain ⟨t, ht⟩ := orchLoop_log_extends cap rest out
        (log ++ [⟨a, Dir.received, ctx⟩, ⟨a, Dir.response, out⟩])
      refine ⟨[⟨a, Dir.received, ctx⟩, ⟨a, Dir.response, out⟩] ++ t, ?_⟩
      rw [orchLoop_cons_some cap a rest ctx log out hc, ht]
      simp
    | none =>
      refine ⟨[⟨a, Dir.received, ctx⟩], ?_⟩
      rw [orchLoop_cons_none cap a rest ctx log hc]

theorem orchTrace_in_final (cap : Str → Str → Option Str) :
    ∀ (ag : List Str) (ctx : Str) (log : List WorkflowLogEntry),
      ∀ l ∈ orchTrace cap ag ctx log, ∃ t, l ++ t = (orchLoop cap ag ctx log).log
  | [], ctx, log => by
    intro l hl
    rw [show orchTrace cap [] ctx log = [log] from rfl] at hl
    rw [List.mem_singleton.mp hl]
    exact ⟨[], by simp [orchLoop]⟩
  | a :: rest, ctx, log => by
    intro l hl
    cases hc : cap a ctx with
    | some out =>
      have hloop : orchLoop cap (a :: rest) ctx log
          = orchLoop cap rest out (log ++ [⟨a, Dir.received, ctx⟩, ⟨a, Dir.response, out⟩]) :=
        orchLoop_cons_some cap a rest ctx log out hc
      rw [orchTrace_cons_some cap a rest ctx log out hc] at hl
      obtain ⟨t, ht⟩ := orchLoop_log_extends cap rest out
        (log ++ [⟨a, Dir.received, ctx⟩, ⟨a, Dir.response, out⟩])
      rcases List.mem_cons.mp hl with h1 | hl'
      · refine ⟨[⟨a, Dir.received, ctx⟩, ⟨a, Dir.response, out⟩] ++ t, ?_⟩
        rw [h1, hloop, ht]
        simp
      rcases List.mem_cons.mp hl' with h2 | hl''
      · refine ⟨[⟨a, Dir.response, out⟩] ++ t, ?_⟩
        rw [h2, hloop, ht]
        simp
      · obtain ⟨t2, ht2⟩ := orchTrace_in_final cap rest out
          (log ++ [⟨a, Dir.received, ctx⟩, ⟨a, Dir.response, out⟩]) l hl''
        exact ⟨t2, by rw [ht2, hloop]⟩
    | none =>
      have hloop : orchLoop cap (a :: rest) ctx log
          = ⟨log ++ [⟨a, Dir.received, ctx⟩], PStatus.failure, some a⟩ :=
        orchLoop_cons_none cap a rest ctx log hc
      rw [orchTrace_cons_none cap a rest ctx log hc] at hl
      rcases List.mem_cons.mp hl with h1 | hl'
      · exact ⟨[⟨a, Dir.received, ctx⟩], by rw [h1, hloop]⟩
      · refine ⟨[], ?_⟩
        rw [List.mem_singleton.mp hl', hloop]
        simp

/-! ### Helper lemmas: the blank-idea gate -/

theorem dropWhile_isWs_all (s : Str) (h : ∀ c ∈ s, isWs c = true) :
    s.dropWhile isWs = [] := by
  induction s with
  | nil => rfl
  | cons c rest ih =>
    rw [List.dropWhile_cons, h c (List.mem_cons_self c rest)]
    exact ih (fun x hx => h x (List.mem_cons_of_mem c hx))

theorem jsTrim_all_ws (s : Str) (h : ∀ c ∈ s, isWs c = true) : jsTrim s = [] := by
  rw [jsTrim, dropWhile_isWs_all s h]
  rfl

/-! ### Claim theorems -/

/-- C1 counterexample: on the entry string
`[A] received: x\n[B] response: y` the claim predicts content `x` (sliced
non-greedily up to the next `[Agent] direction:` marker), but
`parseWorkflowStep` returns the greedy content
`x\n[B] response: y`, running to the end of the string and across the
second marker. -/
theorem c1_counterexample :
    parseWorkflowStep ("[A] received: x\n[B] response: y".toList)
      ≠ some ⟨"A".toList, Dir.received, "x".toList⟩
    ∧ parseWorkflowStep ("[A] received: x\n[B] response: y".toList)
      = some ⟨"A".toList, Dir.received, "x\n[B] response: y".toList⟩ := by
  constructor
  · decide
  · decide

/-- C1 (amended): for every canonical entry string
`[Name] direction: content` with a name free of `]` and content not
beginning with whitespace, `parseWorkflowStep` returns the decoded step
whose content runs (greedily) to the end of the string; and every string
in which no suffix matches the marker pattern is dropped silently, the
decoder returning `none` rather than raising an error. -/
theorem c1_canonical_parse :
    (∀ (name content : Str) (d : Dir), ']' ∉ name → headWsFree content = true →
      parseWorkflowStep (encodeStr ⟨name, d, content⟩) = some ⟨name, d, content⟩)
    ∧ (∀ s : Str, containsMarker s = false → parseWorkflowStep s = none) :=
  ⟨fun name content d hn hc => parse_encode ⟨name, d, content⟩ hn hc,
   parse_none_of_no_marker⟩

/-- C1 witness: the amended theorem applied to the concrete canonical
entry `[Design] received: ok` and to the markerless string `plain text`. -/
theorem c1_witness :
    parseWorkflowStep (encodeStr ⟨"Design".toList, Dir.received, "ok".toList⟩)
      = some ⟨"Design".toList, Dir.received, "ok".toList⟩
    ∧ parseWorkflowStep ("plain text".toList) = none :=
  ⟨c1_canonical_parse.1 ("Design".toList) ("ok".toList) Dir.received (by decide) (by decide),
   c1_canonical_parse.2 ("plain text".toList) (by decide)⟩

/-- C2 counterexample: the singleton sequence holding the entry
`{agent A, direction response, content "x[B] received: y"}` is
well-formed in the claim's sense (non-empty agent name, valid direction),
yet decoding its encoding yields two steps, not the original sequence:
the marker pattern embedded in the content is sliced out as a second
entry. -/
theorem c2_counterexample :
    (⟨"A".toList, Dir.response, "x[B] received: y".toList⟩ : WorkflowLogEntry).agent ≠ []
    ∧ decodeLog (encodeStr ⟨"A".toList, Dir.response, "x[B] received: y".toList⟩)
        ≠ [toStep ⟨"A".toList, Dir.response, "x[B] received: y".toList⟩] := by
  constructor
  · decide
  · decide

/-- C2 (amended): the round-trip law holds for every sequence of entries
whose agent names are non-empty and free of `]` and whose contents are
free of `[` (so no marker pattern can occur inside a content or straddle
into the following entry): decoding the concatenation of the encodings
reproduces the original sequence exactly, including entries whose content
spans multiple lines. -/
theorem c2_roundtrip (es : List WorkflowLogEntry)
    (hwf : ∀ e ∈ es, wfRT e) :
    decodeLog (encodeAll es) = es.map toStep :=
  decodeLog_encodeAll es hwf

/-- C2 witness: the round trip on a concrete two-entry log whose second
content spans two lines. -/
theorem c2_witness :
    decodeLog (encodeAll
      [⟨"Design".toList, Dir.received, "eco bottle".toList⟩,
       ⟨"Marketing".toList, Dir.response, "plan:\ngo green".toList⟩])
    = [⟨"Design".toList, Dir.received, "eco bottle".toList⟩,
       ⟨"Marketing".toList, Dir.response, "plan:\ngo green".toList⟩].map toStep :=
  c2_roundtrip
    [⟨"Design".toList, Dir.received, "eco bottle".toList⟩,
     ⟨"Marketing".toList, Dir.response, "plan:\ngo green".toList⟩]
    (by decide)

/-- C9: the client decode-and-filter pipeline is total on every array of
strings: `agentResponses` is defined for every input list, never yields
more steps than input strings, and every exposed step is a `response`
step decoded from some element of the array (`parseWorkflowStep` itself
returns `some` or `none` on every string, never an error). -/
theorem c9_decoder_total (ws : List Str) :
    (agentResponses ws).length ≤ ws.length
    ∧ ∀ st ∈ agentResponses ws,
        st.type = Dir.response ∧ ∃ s, s ∈ ws ∧ parseWorkflowStep s = some st := by
  constructor
  · exact le_trans (List.length_filter_le _ _) (List.length_filterMap_le _ _)
  · intro st hst
    obtain ⟨hmem, hp⟩ := List.mem_filter.mp hst
    exact ⟨of_decide_eq_true hp, List.mem_filterMap.mp hmem⟩

/-- C9 witness: the totality bound on a concrete two-element workflow
array containing one undecodable string. -/
theorem c9_witness :
    (agentResponses ["[A] response: hi".toList, "junk".toList]).length ≤ 2 :=
  le_of_le_of_eq (c9_decoder_total ["[A] response: hi".toList, "junk".toList]).1 (by decide)

/-- C10: the decoder accepts inputs the codec's encode could never
produce: the empty agent name of `[] response: x` is accepted (no
well-formed entry encodes to that string), and the unanchored match still
parses `noise [Design] response: y` even though leading text makes the
string unreachable for any encoding. -/
theorem c10_decoder_permissive :
    parseWorkflowStep ("[] response: x".toList)
      = some ⟨[], Dir.response, "x".toList⟩
    ∧ (∀ e : WorkflowLogEntry, e.agent ≠ [] →
        encodeStr e ≠ "[] response: x".toList)
    ∧ parseWorkflowStep ("noise [Design] response: y".toList)
      = some ⟨"Design".toList, Dir.response, "y".toList⟩
    ∧ (∀ e : WorkflowLogEntry, encodeStr e ≠ "noise [Design] response: y".toList) := by
  refine ⟨by decide, ?_, by decide, ?_⟩
  · intro e hne heq
    rw [show "[] response: x".toList
        = '[' :: (']' :: ' ' :: ('r' :: 'e' :: 's' :: 'p' :: 'o' :: 'n' :: 's' :: 'e' :: ':' :: ' ' :: 'x' :: []))
        from rfl] at heq
    simp only [encodeStr, List.cons.injEq, true_and] at heq
    cases ha : e.agent with
    | nil => exact hne ha
    | cons a1 as =>
      rw [ha, List.cons_append] at heq
      simp only [List.cons.injEq] at heq
      obtain ⟨_, heq2⟩ := heq
      cases as with
      | nil =>
        rw [List.nil_append] at heq2
        simp only [List.cons.injEq] at heq2
        exact absurd heq2.1 (by decide)
      | cons a2 as2 =>
        rw [List.cons_append] at heq2
        simp only [List.cons.injEq] at heq2
        obtain ⟨_, heq3⟩ := heq2
        have hmem : (']' : Char) ∈ as2 ++ (']' :: ' ' :: (dirChars e.direction ++ ':' :: ' ' :: e.content)) :=
          List.mem_append_right _ (List.mem_cons_self _ _)
        rw [heq3] at hmem
        exact absurd hmem (by decide)
  · intro e heq
    rw [show "noise [Design] response: y".toList
        = 'n' :: ('o' :: 'i' :: 's' :: 'e' :: ' ' :: '[' :: 'D' :: 'e' :: 's' :: 'i' :: 'g' :: 'n' :: ']'
            :: ' ' :: 'r' :: 'e' :: 's' :: 'p' :: 'o' :: 'n' :: 's' :: 'e' :: ':' :: ' ' :: 'y' :: [])
        from rfl] at heq
    simp only [encodeStr, List.cons.injEq] at heq
    exact absurd heq.1 (by decide)

/-- C10 witness: the unproducibility conjuncts applied to the concrete
well-formed entry `{agent A, received, content x}`. -/
theorem c10_witness :
    encodeStr ⟨"A".toList, Dir.received, "x".toList⟩ ≠ "[] response: x".toList
    ∧ encodeStr ⟨"A".toList, Dir.received, "x".toList⟩ ≠ "noise [Design] response: y".toList :=
  ⟨c10_decoder_permissive.2.1 ⟨"A".toList, Dir.received, "x".toList⟩ (by decide),
   c10_decoder_permissive.2.2.2 ⟨"A".toList, Dir.received, "x".toList⟩⟩

theorem filterMap_parse :
    ∀ es : List WorkflowLogEntry,
      (∀ e ∈ es, ']' ∉ e.agent ∧ headWsFree e.content = true) →
      (es.map encodeStr).filterMap parseWorkflowStep = es.map toStep
  | [], _ => rfl
  | e :: rest, h => by
    obtain ⟨hn, hc⟩ := h e (List.mem_cons_self e rest)
    have ih := filterMap_parse rest (fun x hx => h x (List.mem_cons_of_mem e hx))
    rw [List.map_cons, List.map_cons,
      List.filterMap_cons_some (parse_encode e hn hc), ih]

/-- C3: over a serialized workflow log delivered as an array of encoded
entry strings, the client pipeline `agentResponses` exposes exactly the
`response`-type steps, in their original order; a log whose `received`
entries outnumber its `response` entries (a dangling `received` at the
end) decodes without error into a response-step sequence strictly shorter
than the agent (received-entry) count. Entries are assumed well formed:
agent names free of `]`, contents not beginning with whitespace. -/
theorem c3_responses_exposed (es : List WorkflowLogEntry)
    (h : ∀ e ∈ es, ']' ∉ e.agent ∧ headWsFree e.content = true) :
    agentResponses (es.map encodeStr)
      = (es.filter (fun e => e.direction = Dir.response)).map toStep
    ∧ (es.countP (fun e => e.direction = Dir.response)
          < es.countP (fun e => e.direction = Dir.received) →
        (agentResponses (es.map encodeStr)).length
          < es.countP (fun e => e.direction = Dir.received)) := by
  have hcomp : ((fun st : DecodedStep => decide (st.type = Dir.response)) ∘ toStep)
      = (fun e : WorkflowLogEntry => decide (e.direction = Dir.response)) := rfl
  have h1 : agentResponses (es.map encodeStr)
      = (es.filter (fun e => e.direction = Dir.response)).map toStep := by
    rw [agentResponses, filterMap_parse es h, List.filter_map, hcomp]
  refine ⟨h1, fun hlt => ?_⟩
  rw [h1, List.length_map, ← List.countP_eq_length_filter]
  exact hlt

/-- C3 witness: a three-entry log ending in a dangling `received` for the
Marketing agent exposes exactly the single Design response, and the
response-step count 1 is below the received-entry count 2. -/
theorem c3_witness :
    agentResponses
      ([⟨"Design".toList, Dir.received, "idea".toList⟩,
        ⟨"Design".toList, Dir.response, "r1".toList⟩,
        ⟨"Marketing".toList, Dir.received, "r1".toList⟩].map encodeStr)
      = [⟨"Design".toList, Dir.response, "r1".toList⟩]
    ∧ (agentResponses
        ([⟨"Design".toList, Dir.received, "idea".toList⟩,
          ⟨"Design".toList, Dir.response, "r1".toList⟩,
          ⟨"Marketing".toList, Dir.received, "r1".toList⟩].map encodeStr)).length < 2 := by
  have h := c3_responses_exposed
    [⟨"Design".toList, Dir.received, "idea".toList⟩,
     ⟨"Design".toList, Dir.response, "r1".toList⟩,
     ⟨"Marketing".toList, Dir.received, "r1".toList⟩] (by decide)
  refine ⟨h.1.trans (by decide), ?_⟩
  have h2 := h.2 (by decide)
  exact lt_of_lt_of_eq h2 (by decide)

/-- C4: an idea that is empty or consists only of whitespace is rejected
by the client gate (`handleSubmit` returns before issuing the request,
setting the inline error, the spec's InputError): no request body exists,
the pipeline never runs, and no PipelineResult is produced. -/
theorem c4_blank_idea_rejected (idea : Str) (cap : Str → Str → Option Str)
    (agents : List Str) (h : ∀ c ∈ idea, isWs c = true) :
    handleSubmit idea = SubmitOutcome.inputError
    ∧ clientRun cap agents idea = none := by
  have ht := jsTrim_all_ws idea h
  constructor
  · rw [handleSubmit, if_pos ht]
  · rw [clientRun]
    rw [handleSubmit, if_pos ht]

/-- C4 witness: the whitespace-only idea of two spaces is rejected with
no pipeline result, for a concrete capability and agent list. -/
theorem c4_witness :
    handleSubmit ("  ".toList) = SubmitOutcome.inputError
    ∧ clientRun (fun _ c => some c) ["Design".toList] ("  ".toList) = none :=
  c4_blank_idea_rejected ("  ".toList) (fun _ c => some c) ["Design".toList] (by decide)

/-- C5: when every configured agent's capability invocation succeeds, the
run ends with status Success (and no failedAt), and the log holds exactly
2N entries: for each agent in configured order, a `received` entry
immediately followed by a `response` entry. -/
theorem c5_success_shape (cap : Str → Str → Option Str) (agents : List Str)
    (idea : Str) (hcap : ∀ a ctx, a ∈ agents → (cap a ctx).isSome = true) :
    (runOrchestrator cap agents idea).status = PStatus.success
    ∧ (runOrchestrator cap agents idea).failedAt = none
    ∧ (runOrchestrator cap agents idea).log.map (fun e => e.agent) = twice agents
    ∧ (runOrchestrator cap agents idea).log.map (fun e => e.direction) = pattRS agents
    ∧ (runOrchestrator cap agents idea).log.length = 2 * agents.length := by
  obtain ⟨suf, hrun, hag, hdir, hlen⟩ := orchLoop_success cap agents idea [] hcap
  have hrun2 : runOrchestrator cap agents idea = ⟨suf, PStatus.success, none⟩ := by
    rw [runOrchestrator, hrun, List.nil_append]
  rw [hrun2]
  exact ⟨rfl, rfl, hag, hdir, hlen⟩

/-- C5 witness: the spec's scenario: four agents, a stub capability
answering `<Agent> says: ok`, the idea `eco-friendly water bottle`; the
run succeeds and the log holds exactly 8 entries. -/
theorem c5_witness :
    (runOrchestrator (fun a _ => some (a ++ " says: ok".toList))
      ["Design".toList, "Marketing".toList, "Sales".toList, "Support".toList]
      ("eco-friendly water bottle".toList)).status = PStatus.success
    ∧ (runOrchestrator (fun a _ => some (a ++ " says: ok".toList))
      ["Design".toList, "Marketing".toList, "Sales".toList, "Support".toList]
      ("eco-friendly water bottle".toList)).log.length = 8 := by
  have h := c5_success_shape (fun a _ => some (a ++ " says: ok".toList))
    ["Design".toList, "Marketing".toList, "Sales".toList, "Support".toList]
    ("eco-friendly water bottle".toList) (fun a ctx _ => rfl)
  exact ⟨h.1, h.2.2.2.2.trans (by decide)⟩

/-- C6: when the capability fails for one agent (and succeeds for every
agent before it), the run stops there: status Failure with failedAt that
agent, full received/response pairs for the preceding agents, a single
dangling `received` entry for the failed agent, 2(k-1)+1 entries in all,
and no entry at all for any distinct later agent. -/
theorem c6_failure_shape (cap : Str → Str → Option Str) (pre : List Str)
    (bad : Str) (post : List Str) (idea : Str)
    (hpre : ∀ a ctx, a ∈ pre → (cap a ctx).isSome = true)
    (hbad : ∀ ctx, cap bad ctx = none) :
    (runOrchestrator cap (pre ++ bad :: post) idea).status = PStatus.failure
    ∧ (runOrchestrator cap (pre ++ bad :: post) idea).failedAt = some bad
    ∧ (runOrchestrator cap (pre ++ bad :: post) idea).log.map (fun e => e.agent)
        = twice pre ++ [bad]
    ∧ (runOrchestrator cap (pre ++ bad :: post) idea).log.map (fun e => e.direction)
        = pattRS pre ++ [Dir.received]
    ∧ (runOrchestrator cap (pre ++ bad :: post) idea).log.length = 2 * pre.length + 1
    ∧ ∀ x ∈ post, x ∉ pre → x ≠ bad →
        ∀ e ∈ (runOrchestrator cap (pre ++ bad :: post) idea).log, e.agent ≠ x := by
  obtain ⟨suf, hrun, hag, hdir, hlen⟩ := orchLoop_failure cap bad post hbad pre idea [] hpre
  have hrun2 : runOrchestrator cap (pre ++ bad :: post) idea
      = ⟨suf, PStatus.failure, some bad⟩ := by
    rw [runOrchestrator, hrun, List.nil_append]
  rw [hrun2]
  refine ⟨rfl, rfl, hag, hdir, hlen, ?_⟩
  intro x _ hxpre hxbad e he heq
  have hmem : e.agent ∈ suf.map (fun e => e.agent) :=
    List.mem_map_of_mem (fun e => e.agent) he
  rw [hag] at hmem
  rcases List.mem_append.mp hmem with hl | hr
  · exact hxpre (heq ▸ mem_twice e.agent pre hl)
  · exact hxbad (heq ▸ List.mem_singleton.mp hr)

/-- C6 witness: Design succeeds, Marketing fails; the run fails at
Marketing with a three-entry log (Design's pair plus the dangling
Marketing `received`). -/
theorem c6_witness :
    (runOrchestrator
      (fun a ctx => if a = "Marketing".toList then none else some ctx)
      (["Design".toList] ++ "Marketing".toList :: ["Sales".toList, "Support".toList])
      ("i".toList)).status = PStatus.failure
    ∧ (runOrchestrator
      (fun a ctx => if a = "Marketing".toList then none else some ctx)
      (["Design".toList] ++ "Marketing".toList :: ["Sales".toList, "Support".toList])
      ("i".toList)).failedAt = some ("Marketing".toList)
    ∧ (runOrchestrator
      (fun a ctx => if a = "Marketing".toList then none else some ctx)
      (["Design".toList] ++ "Marketing".toList :: ["Sales".toList, "Support".toList])
      ("i".toList)).log.length = 3 := by
  have h := c6_failure_shape
    (fun a ctx => if a = "Marketing".toList then none else some ctx)
    ["Design".toList] ("Marketing".toList) ["Sales".toList, "Support".toList]
    ("i".toList)
    (fun a ctx ha => by rw [List.mem_singleton.mp ha]; rfl)
    (fun ctx => rfl)
  exact ⟨h.1, h.2.1, h.2.2.2.2.1.trans (by decide)⟩

/-- C7: the orchestrator is deterministic: two runs on the same idea with
capabilities that behave identically visit the agents in the same order
and produce the same PipelineResult, hence byte-identical serialized
logs. -/
theorem c7_deterministic (agents : List Str)
    (cap1 cap2 : Str → Str → Option Str) (idea1 idea2 : Str)
    (hidea : idea1 = idea2) (hcap : ∀ a c, cap1 a c = cap2 a c) :
    runOrchestrator cap1 agents idea1 = runOrchestrator cap2 agents idea2
    ∧ encodeAll (runOrchestrator cap1 agents idea1).log
        = encodeAll (runOrchestrator cap2 agents idea2).log := by
  have hc : cap1 = cap2 := funext fun a => funext fun c => hcap a c
  subst hidea
  subst hc
  exact ⟨rfl, rfl⟩

/-- C7 witness: two runs with the same fixed-output stub capability and
the same idea agree, including the serialized log bytes. -/
theorem c7_witness :
    runOrchestrator (fun a _ => some (a ++ " says: ok".toList))
      ["Design".toList, "Marketing".toList, "Sales".toList, "Support".toList]
      ("eco-friendly water bottle".toList)
    = runOrchestrator (fun a _ => some (a ++ " says: ok".toList))
      ["Design".toList, "Marketing".toList, "Sales".toList, "Support".toList]
      ("eco-friendly water bottle".toList)
    ∧ encodeAll (runOrchestrator (fun a _ => some (a ++ " says: ok".toList))
      ["Design".toList, "Marketing".toList, "Sales".toList, "Support".toList]
      ("eco-friendly water bottle".toList)).log
    = encodeAll (runOrchestrator (fun a _ => some (a ++ " says: ok".toList))
      ["Design".toList, "Marketing".toList, "Sales".toList, "Support".toList]
      ("eco-friendly water bottle".toList)).log :=
  c7_deterministic
    ["Design".toList, "Marketing".toList, "Sales".toList, "Support".toList]
    (fun a _ => some (a ++ " says: ok".toList))
    (fun a _ => some (a ++ " says: ok".toList))
    ("eco-friendly water bottle".toList) ("eco-friendly water bottle".toList)
    rfl (fun _ _ => rfl)

/-- C8: the per-step log invariant: along the whole trace of a run, every
snapshot keeps each executed agent's `received` entry immediately before
its `response` entry (with at most one dangling `received` at the end),
the log grows append-only from snapshot to snapshot, and every snapshot
is a prefix of the final log of the run. -/
theorem c8_log_invariant (cap : Str → Str → Option Str) (agents : List Str)
    (idea : Str) :
    growsBy (orchTrace cap agents idea [])
    ∧ (∀ l ∈ orchTrace cap agents idea [], chainOK l = true)
    ∧ (∀ l ∈ orchTrace cap agents idea [],
        ∃ t, l ++ t = (runOrchestrator cap agents idea).log) :=
  ⟨orchTrace_growsBy cap agents idea [],
   orchTrace_chainOK cap agents idea [] rfl,
   fun l hl => orchTrace_in_final cap agents idea [] l hl⟩

/-- C8 witness: on a one-agent run, the intermediate snapshot holding
just the dangling `received` entry satisfies the pairing discipline. -/
theorem c8_witness :
    chainOK [⟨"Design".toList, Dir.received, "x".toList⟩] = true :=
  (c8_log_invariant (fun _ c => some c) ["Design".toList] ("x".toList)).2.1
    [⟨"Design".toList, Dir.received, "x".toList⟩] (by decide)

end Raise

